import Mathlib

/-!
Verification of the audio-to-whiteboard-animation pipeline in `src/main.py`.

The pipeline transcribes an uploaded audio file, segments the transcript
into sentences (`segment_text`), generates one image per sentence with a
failure-tolerant per-sentence skip (`generate_image_for_sentence`),
assembles the images and the audio into a video with uniform per-image
durations and a 0.5 s fade-in on every clip (`create_video_from_images`),
and finally deletes every file in the `temp` scratch directory.

Embedding conventions:
- Python strings are modelled as `List Char`; `str.strip`, `str.replace`
  and `str.split` are reproduced as `pyStrip`, `pyReplace` and `pySplit`.
- Media durations are modelled as exact rationals.
- External effects (the transcription API, the image-generation API plus
  the image download, the filesystem) are modelled as explicit oracle
  arguments and an explicit list of written file paths.
- Exceptions raised by external calls are modelled as `Except` values;
  `st.stop()` is modelled by returning a fatal `RunOutcome` early.
-/

namespace Animador

/-- Characters treated as whitespace by Python's `str.strip()` /
`str.isspace()` (ASCII whitespace, the C1 separators, and the Unicode
space characters). -/
def pyIsSpace (c : Char) : Bool :=
  let n := c.toNat
  (0x9 ≤ n && n ≤ 0xD) || (0x1C ≤ n && n ≤ 0x1F) || n == 0x20 ||
  n == 0x85 || n == 0xA0 || n == 0x1680 || (0x2000 ≤ n && n ≤ 0x200A) ||
  n == 0x2028 || n == 0x2029 || n == 0x202F || n == 0x205F || n == 0x3000

/-- Python `s.strip()`: remove leading and trailing whitespace. -/
def pyStrip (s : List Char) : List Char :=
  ((s.dropWhile pyIsSpace).reverse.dropWhile pyIsSpace).reverse

/-- Python `s.replace(a, b)` for single-character pattern and
replacement. -/
def pyReplace (s : List Char) (a b : Char) : List Char :=
  s.map fun c => if c = a then b else c

/-- Helper for `pySplit`: accumulates the current piece (reversed) while
scanning the input. Mirrors Python `str.split(sep)` semantics: empty
pieces are kept, and the empty string yields one empty piece. -/
def splitAux (sep : Char) : List Char → List Char → List (List Char)
  | [], acc => [acc.reverse]
  | c :: cs, acc =>
    if c = sep then acc.reverse :: splitAux sep cs []
    else splitAux sep cs (c :: acc)

/-- Python `s.split(sep)` for a single-character separator. -/
def pySplit (sep : Char) (s : List Char) : List (List Char) :=
  splitAux sep s []

/-- Embedding of `segment_text` (src/main.py lines 39-42):
normalize `!` and `?` to `.`, split on `.`, strip each piece, and keep
only the pieces that are non-empty after stripping. -/
def segment_text (text : List Char) : List (List Char) :=
  let sentences := pySplit '.' (pyReplace (pyReplace text '!' '.') '?' '.')
  sentences.filterMap fun s => if pyStrip s = [] then none else some (pyStrip s)

/-! ### Basic lemmas about the string helpers -/

theorem dropWhile_idem (p : α → Bool) (l : List α) :
    (l.dropWhile p).dropWhile p = l.dropWhile p := by
  induction l with
  | nil => rfl
  | cons a t ih =>
    by_cases h : p a = true
    · simp [List.dropWhile_cons, h, ih]
    · simp [List.dropWhile_cons, h]

theorem dropWhile_ne_nil (p : α → Bool) (l : List α)
    (h : ∃ c ∈ l, p c = false) : l.dropWhile p ≠ [] := by
  induction l with
  | nil => simp at h
  | cons a t ih =>
    by_cases ha : p a = true
    · simp only [List.dropWhile_cons, ha, if_true]
      apply ih
      rcases h with ⟨c, hc, hpc⟩
      rcases List.mem_cons.mp hc with rfl | hct
      · exact absurd ha (by simp [hpc])
      · exact ⟨c, hct, hpc⟩
    · simp [List.dropWhile_cons, ha]

theorem head_false_of_dropWhile (p : α → Bool) (l : List α) (a : α) (t : List α)
    (h : l.dropWhile p = a :: t) : p a = false := by
  induction l with
  | nil => simp at h
  | cons b s ih =>
    by_cases hb : p b = true
    · simp only [List.dropWhile_cons, hb, if_true] at h
      exact ih h
    · simp only [List.dropWhile_cons, hb, if_false] at h
      cases h
      simpa using hb

theorem mem_of_mem_dropWhile (p : α → Bool) (l : List α) (c : α)
    (h : c ∈ l.dropWhile p) : c ∈ l :=
  (List.dropWhile_sublist p).mem h

theorem mem_of_mem_pyStrip (s : List Char) (c : Char) (h : c ∈ pyStrip s) : c ∈ s := by
  unfold pyStrip at h
  rw [List.mem_reverse] at h
  have h2 := mem_of_mem_dropWhile _ _ _ h
  rw [List.mem_reverse] at h2
  exact mem_of_mem_dropWhile _ _ _ h2

theorem pyStrip_ne_nil (s : List Char) (c : Char)
    (hc : c ∈ s) (hsp : pyIsSpace c = false) : pyStrip s ≠ [] := by
  have h1 : s.dropWhile pyIsSpace ≠ [] := dropWhile_ne_nil _ _ ⟨c, hc, hsp⟩
  unfold pyStrip
  intro hrev
  rw [List.reverse_eq_nil_iff] at hrev
  rcases he : s.dropWhile pyIsSpace with _ | ⟨a, t⟩
  · exact h1 he
  · rw [he] at hrev
    exact dropWhile_ne_nil pyIsSpace (a :: t).reverse
      ⟨a, by simp, head_false_of_dropWhile pyIsSpace s a t he⟩ hrev

theorem pyStrip_idem (s : List Char) : pyStrip (pyStrip s) = pyStrip s := by
  have hfront : (pyStrip s).dropWhile pyIsSpace = pyStrip s := by
    rcases he : pyStrip s with _ | ⟨a, t⟩
    · rfl
    · have hpre : pyStrip s <+: s.dropWhile pyIsSpace := by
        rw [← List.reverse_suffix]
        show (pyStrip s).reverse <:+ (s.dropWhile pyIsSpace).reverse
        unfold pyStrip
        rw [List.reverse_reverse]
        exact List.dropWhile_suffix _
      rw [he] at hpre
      rcases hpre with ⟨r, hr⟩
      have hpa : pyIsSpace a = false :=
        head_false_of_dropWhile pyIsSpace s a (t ++ r) (by rw [← hr]; simp)
      simp [List.dropWhile_cons, hpa]
  have hback : (pyStrip s).reverse.dropWhile pyIsSpace = (pyStrip s).reverse := by
    unfold pyStrip
    rw [List.reverse_reverse]
    exact dropWhile_idem _ _
  calc pyStrip (pyStrip s)
      = (((pyStrip s).dropWhile pyIsSpace).reverse.dropWhile pyIsSpace).reverse := rfl
    _ = ((pyStrip s).reverse.dropWhile pyIsSpace).reverse := by rw [hfront]
    _ = ((pyStrip s).reverse).reverse := by rw [hback]
    _ = pyStrip s := List.reverse_reverse _

/-! ### Lemmas about `splitAux` / `pySplit` -/

theorem filterMap_pair {α : Type} (f : List α → Option (List α)) (x : List α)
    (hx : f x = some x) (hnil : f [] = none) :
    List.filterMap f [x, []] = [x] := by
  rw [List.filterMap_cons_some hx, List.filterMap_cons_none hnil,
    List.filterMap_nil]

theorem mem_splitAux_sub (sep : Char) (s : List Char) :
    ∀ acc piece, piece ∈ splitAux sep s acc → ∀ c ∈ piece, c ∈ acc ∨ c ∈ s := by
  induction s with
  | nil =>
    intro acc piece hp c hc
    simp only [splitAux, List.mem_singleton] at hp
    subst hp
    exact Or.inl (List.mem_reverse.mp hc)
  | cons b bs ih =>
    intro acc piece hp c hc
    by_cases hb : b = sep
    · simp only [splitAux, if_pos hb] at hp
      rcases List.mem_cons.mp hp with rfl | hp2
      · exact Or.inl (List.mem_reverse.mp hc)
      · rcases ih [] piece hp2 c hc with h | h
        · simp at h
        · exact Or.inr (List.mem_cons_of_mem _ h)
    · simp only [splitAux, if_neg hb] at hp
      rcases ih (b :: acc) piece hp c hc with h | h
      · rcases List.mem_cons.mp h with rfl | h2
        · exact Or.inr (List.mem_cons_self _ _)
        · exact Or.inl h2
      · exact Or.inr (List.mem_cons_of_mem _ h)

theorem splitAux_no_sep (sep : Char) (s : List Char) :
    ∀ acc, sep ∉ acc → ∀ piece ∈ splitAux sep s acc, sep ∉ piece := by
  induction s with
  | nil =>
    intro acc hacc piece hp
    simp only [splitAux, List.mem_singleton] at hp
    subst hp
    simpa using hacc
  | cons b bs ih =>
    intro acc hacc piece hp
    by_cases hb : b = sep
    · simp only [splitAux, if_pos hb] at hp
      rcases List.mem_cons.mp hp with rfl | hp2
      · simpa using hacc
      · exact ih [] (by simp) piece hp2
    · simp only [splitAux, if_neg hb] at hp
      refine ih (b :: acc) ?_ piece hp
      intro hmem
      rcases List.mem_cons.mp hmem with hsb | hsa
      · exact hb hsb.symm
      · exact hacc hsa

theorem exists_mem_splitAux (sep : Char) (s : List Char) :
    ∀ acc c, c ≠ sep → (c ∈ acc ∨ c ∈ s) →
      ∃ piece ∈ splitAux sep s acc, c ∈ piece := by
  induction s with
  | nil =>
    intro acc c _ h
    rcases h with h | h
    · exact ⟨acc.reverse, by simp [splitAux], by simp [h]⟩
    · simp at h
  | cons b bs ih =>
    intro acc c hc h
    by_cases hb : b = sep
    · simp only [splitAux, if_pos hb]
      rcases h with h | h
      · exact ⟨acc.reverse, List.mem_cons_self _ _, by simp [h]⟩
      · rcases List.mem_cons.mp h with rfl | h2
        · exact absurd hb hc
        · rcases ih [] c hc (Or.inr h2) with ⟨piece, hp, hcp⟩
          exact ⟨piece, List.mem_cons_of_mem _ hp, hcp⟩
    · simp only [splitAux, if_neg hb]
      apply ih (b :: acc) c hc
      rcases h with h | h
      · exact Or.inl (List.mem_cons_of_mem _ h)
      · rcases List.mem_cons.mp h with rfl | h2
        · exact Or.inl (List.mem_cons_self _ _)
        · exact Or.inr h2

theorem splitAux_of_no_sep (sep : Char) (s : List Char) :
    ∀ acc, sep ∉ s → splitAux sep s acc = [acc.reverse ++ s] := by
  induction s with
  | nil => intro acc _; simp [splitAux]
  | cons b bs ih =>
    intro acc h
    have hb : ¬ b = sep := by
      intro hbe
      exact h (by rw [hbe]; exact List.mem_cons_self _ _)
    simp only [splitAux, if_neg hb]
    rw [ih (b :: acc) (fun hm => h (List.mem_cons_of_mem _ hm))]
    simp

theorem splitAux_append_sep (sep : Char) (s t : List Char) :
    ∀ acc, sep ∉ s →
      splitAux sep (s ++ sep :: t) acc = (acc.reverse ++ s) :: splitAux sep t [] := by
  induction s with
  | nil => intro acc _; simp [splitAux]
  | cons b bs ih =>
    intro acc h
    have hb : ¬ b = sep := by
      intro hbe
      exact h (by rw [hbe]; exact List.mem_cons_self _ _)
    simp only [List.cons_append, splitAux, if_neg hb, List.append_eq]
    rw [ih (b :: acc) (fun hm => h (List.mem_cons_of_mem _ hm))]
    simp

/-! ### Lemmas about `pyReplace` -/

theorem not_mem_pyReplace (s : List Char) (a b : Char) (hab : a ≠ b) :
    a ∉ pyReplace s a b := by
  unfold pyReplace
  intro h
  rw [List.mem_map] at h
  rcases h with ⟨c, _, hmap⟩
  by_cases hca : c = a
  · rw [if_pos hca] at hmap
    exact hab hmap.symm
  · rw [if_neg hca] at hmap
    exact hca hmap

theorem mem_pyReplace_elim (s : List Char) (a b x : Char)
    (h : x ∈ pyReplace s a b) : x = b ∨ x ∈ s := by
  unfold pyReplace at h
  rw [List.mem_map] at h
  rcases h with ⟨c, hc, hmap⟩
  by_cases hca : c = a
  · rw [if_pos hca] at hmap
    exact Or.inl hmap.symm
  · rw [if_neg hca] at hmap
    exact Or.inr (hmap ▸ hc)

theorem mem_pyReplace_of_ne (s : List Char) (a b c : Char)
    (hca : c ≠ a) (hc : c ∈ s) : c ∈ pyReplace s a b := by
  unfold pyReplace
  rw [List.mem_map]
  exact ⟨c, hc, if_neg hca⟩

theorem pyReplace_eq_self (s : List Char) (a b : Char) (h : a ∉ s) :
    pyReplace s a b = s := by
  unfold pyReplace
  have : ∀ c ∈ s, (if c = a then b else c) = c := by
    intro c hc
    rw [if_neg]
    intro hca
    exact h (hca ▸ hc)
  rw [List.map_congr_left this, List.map_id']

/-! ### Structural facts about `segment_text` -/

/-- The text fed to the split step: `!` and `?` normalised to `.`. -/
def normalized (text : List Char) : List Char :=
  pyReplace (pyReplace text '!' '.') '?' '.'

theorem not_mem_normalized_exclam (text : List Char) : '!' ∉ normalized text := by
  intro h
  rcases mem_pyReplace_elim _ _ _ _ h with h2 | h2
  · exact absurd h2 (by decide)
  · exact not_mem_pyReplace text '!' '.' (by decide) h2

theorem not_mem_normalized_question (text : List Char) : '?' ∉ normalized text :=
  not_mem_pyReplace _ '?' '.' (by decide)

theorem mem_normalized_of_ne (text : List Char) (c : Char)
    (h1 : c ≠ '!') (h2 : c ≠ '?') (hc : c ∈ text) : c ∈ normalized text :=
  mem_pyReplace_of_ne _ '?' '.' c h2 (mem_pyReplace_of_ne _ '!' '.' c h1 hc)

theorem segment_text_eq (text : List Char) :
    segment_text text = (pySplit '.' (normalized text)).filterMap
      fun s => if pyStrip s = [] then none else some (pyStrip s) := rfl

/-- Every element of `segment_text text` is its own strip, is non-empty,
and contains none of the sentence delimiters. -/
theorem mem_segment_text (text e : List Char) (h : e ∈ segment_text text) :
    pyStrip e = e ∧ e ≠ [] ∧ ∀ c ∈ e, c ≠ '.' ∧ c ≠ '!' ∧ c ≠ '?' := by
  rw [segment_text_eq, List.mem_filterMap] at h
  rcases h with ⟨s, hs, hfs⟩
  by_cases hst : pyStrip s = []
  · rw [if_pos hst] at hfs
    cases hfs
  · rw [if_neg hst] at hfs
    have he : e = pyStrip s := (Option.some.injEq _ _ ▸ hfs).symm
    subst he
    refine ⟨pyStrip_idem s, hst, ?_⟩
    intro c hc
    have hcs : c ∈ s := mem_of_mem_pyStrip s c hc
    have hnodot : '.' ∉ s := splitAux_no_sep '.' (normalized text) [] (by simp) s hs
    have hcn : c ∈ normalized text := by
      rcases mem_splitAux_sub '.' (normalized text) [] s hs c hcs with h2 | h2
      · simp at h2
      · exact h2
    refine ⟨?_, ?_, ?_⟩
    · intro hce; exact hnodot (hce ▸ hcs)
    · intro hce; exact not_mem_normalized_exclam text (hce ▸ hcn)
    · intro hce; exact not_mem_normalized_question text (hce ▸ hcn)

/-- A transcript containing a character that is neither a delimiter nor
whitespace segments to a non-empty list. -/
theorem segment_text_ne_nil (text : List Char) (c : Char) (hc : c ∈ text)
    (h1 : c ≠ '.') (h2 : c ≠ '!') (h3 : c ≠ '?') (h4 : pyIsSpace c = false) :
    segment_text text ≠ [] := by
  have hcn : c ∈ normalized text := mem_normalized_of_ne text c h2 h3 hc
  rcases exists_mem_splitAux '.' (normalized text) [] c h1 (Or.inr hcn) with
    ⟨piece, hp, hcp⟩
  have hstrip : pyStrip piece ≠ [] := pyStrip_ne_nil piece c hcp h4
  have hmem : pyStrip piece ∈ segment_text text := by
    rw [segment_text_eq, List.mem_filterMap]
    exact ⟨piece, hp, if_neg hstrip⟩
  intro hnil
  rw [hnil] at hmem
  cases hmem

/-- On delimiter-free, already-stripped, non-empty input, `segment_text`
returns the input as the single sentence. -/
theorem segment_text_of_no_punct (e : List Char)
    (hdot : '.' ∉ e) (hexc : '!' ∉ e) (hq : '?' ∉ e)
    (hstrip : pyStrip e = e) (hne : e ≠ []) : segment_text e = [e] := by
  have hnorm : normalized e = e := by
    unfold normalized
    rw [pyReplace_eq_self e '!' '.' hexc, pyReplace_eq_self e '?' '.' hq]
  rw [segment_text_eq, hnorm]
  unfold pySplit
  rw [splitAux_of_no_sep '.' e [] hdot]
  simp [hstrip, hne]

/-- Appending a terminal `.` to delimiter-free, stripped, non-empty input
yields exactly that input as the single sentence. -/
theorem segment_text_append_dot (s : List Char)
    (hdot : '.' ∉ s) (hexc : '!' ∉ s) (hq : '?' ∉ s)
    (hstrip : pyStrip s = s) (hne : s ≠ []) :
    segment_text (s ++ ['.']) = [s] := by
  have hnorm : normalized (s ++ ['.']) = s ++ ['.'] := by
    unfold normalized
    rw [pyReplace_eq_self _ '!' '.', pyReplace_eq_self _ '?' '.']
    · intro h
      rcases List.mem_append.mp h with h2 | h2
      · exact hq h2
      · exact absurd (List.mem_singleton.mp h2) (by decide)
    · intro h
      rcases List.mem_append.mp h with h2 | h2
      · exact hexc h2
      · exact absurd (List.mem_singleton.mp h2) (by decide)
  rw [segment_text_eq, hnorm]
  unfold pySplit
  have : s ++ ['.'] = s ++ '.' :: [] := rfl
  rw [this, splitAux_append_sep '.' s [] [] hdot]
  simp only [splitAux, List.reverse_nil, List.nil_append]
  have hfs : (if pyStrip s = [] then none else some (pyStrip s)) = some s := by
    rw [hstrip, if_neg hne]
  have hfnil : (if pyStrip ([] : List Char) = [] then none
      else some (pyStrip ([] : List Char))) = none := if_pos rfl
  exact filterMap_pair _ s hfs hfnil

/-! ### Video assembly (`create_video_from_images`, src/main.py lines 77-97)

moviepy clips are modelled by their attributes relevant to the claims:
image path, display duration and fade-in duration for `ImageClip`;
duration for `AudioFileClip`; the clip list, the total duration and the
attached audio for the concatenated `VideoClip`. -/

structure AudioFileClip where
  duration : ℚ

structure ImageClip where
  image : List Char
  duration : ℚ
  fadein_duration : ℚ

/-- Python `ImageClip(image_path)` before any duration is set. -/
def ImageClip.ofImage (p : List Char) : ImageClip := ⟨p, 0, 0⟩

/-- moviepy `clip.set_duration(d)`. -/
def ImageClip.set_duration (c : ImageClip) (d : ℚ) : ImageClip :=
  ⟨c.image, d, c.fadein_duration⟩

/-- moviepy `clip.fadein(d)`: a fade-in of length `d` at clip start. -/
def ImageClip.fadein (c : ImageClip) (d : ℚ) : ImageClip :=
  ⟨c.image, c.duration, d⟩

structure VideoClip where
  clips : List ImageClip
  duration : ℚ
  audio : Option AudioFileClip

/-- moviepy `concatenate_videoclips(clips, method="compose")`: clips are
played back to back, so the total duration is the sum of the clip
durations. -/
def concatenate_videoclips (clips : List ImageClip) : VideoClip :=
  ⟨clips, (clips.map ImageClip.duration).sum, none⟩

/-- moviepy `clip.set_audio(audio)`. -/
def VideoClip.set_audio (v : VideoClip) (a : AudioFileClip) : VideoClip :=
  ⟨v.clips, v.duration, some a⟩

/-- Embedding of `create_video_from_images` (src/main.py lines 77-97).
The audio file is modelled by the `AudioFileClip` obtained from it; the
`output_path` argument carries the Python default `"final_animation.mp4"`
at the single call site. Python raises `ZeroDivisionError` at
`total_duration / len(image_paths)` when `image_paths` is empty; that
uncaught exception is modelled by `none`. Writing the encoded file is an
external effect; the function returns the final clip and the output
path. -/
def create_video_from_images (image_paths : List (List Char))
    (audio_clip : AudioFileClip) (output_path : List Char) :
    Option (VideoClip × List Char) :=
  if image_paths.length = 0 then none
  else
    let total_duration := audio_clip.duration
    let duration_per_image := total_duration / (image_paths.length : ℚ)
    let clips := image_paths.map fun image_path =>
      ((ImageClip.ofImage image_path).set_duration duration_per_image).fadein (1 / 2)
    let final_clip := concatenate_videoclips clips
    let final_clip := final_clip.set_audio audio_clip
    some (final_clip, output_path)

/-! ### Illustration (`generate_image_for_sentence`, src/main.py lines 45-74)
and the button-handler pipeline (src/main.py lines 115-178) -/

/-- Python `os.path.join(d, f)` for a directory with no trailing slash. -/
def os_path_join (d f : List Char) : List Char := d ++ '/' :: f

/-- The scratch path `temp/image_<index>.png` used for a generated
image. -/
def temp_image_path (index : ℕ) : List Char :=
  os_path_join "temp".data ("image_".data ++ (Nat.repr index).data ++ ".png".data)

/-- Result of the external image-generation request plus the image
download, the body of the `try` block: `ok` carries no data the embedding
needs, `error` carries the exception message. -/
abbrev ApiResult : Type := Except String Unit

/-- Embedding of `generate_image_for_sentence` (src/main.py lines
45-74). The prompt built from the base prompt, the sentence and the
style directive only feeds the external service, so it does not affect
the returned value. On success the downloaded image is written to
`temp/image_<index>.png` and that path is returned; any exception from
the request or the download is caught and `None` is returned. -/
def generate_image_for_sentence (sentence : List Char) (style_prompt : String)
    (index : ℕ) (api : ApiResult) : Option (List Char) :=
  match api with
  | Except.ok _ => some (temp_image_path index)
  | Except.error _ => none

/-- True exactly on the successful api results, i.e. when
`generate_image_for_sentence` returns a path. -/
def api_ok (r : ApiResult) : Bool :=
  match r with
  | Except.ok _ => true
  | Except.error _ => false

/-- The three style directives offered in the UI (src/main.py lines
106-110). -/
def style_options : List (String × String) :=
  [("Padrão (Linhas Simples)", "Mantenha o estilo de desenho o mais simples possível."),
   ("Estilo Cartoon", "Use um estilo de desenho animado (cartoon) amigável e expressivo."),
   ("Mais Detalhado", "Adicione um pouco mais de detalhes e sombreamento leve, mas ainda mantendo a aparência de quadro branco.")]

/-- True for the paths inside the `temp` scratch directory, the files
removed by the cleanup loop `for file in os.listdir("temp"):
os.remove(os.path.join("temp", file))` (src/main.py lines 177-178). -/
def in_temp (p : List Char) : Bool := p.take 5 == "temp/".data

/-- Outcome of one button-handler run. Fatal outcomes correspond to
`st.error` followed by `st.stop()` (or an uncaught moviepy exception for
`fatalAssembly`); `completed` carries the final video, its path, and the
files still present after the cleanup loop. -/
inductive RunOutcome where
  | fatalNoSentences : RunOutcome
  | fatalNoImages : RunOutcome
  | fatalAssembly : RunOutcome
  | completed : VideoClip → List Char → List (List Char) → RunOutcome

/-- Embedding of the button handler (src/main.py lines 115-178) from the
point where the uploaded audio has been saved and transcribed. The
transcription text and the audio duration stand for the external
transcription service and audio decoder; `api i` is the result of the
external image-generation attempt for sentence `i`. The files written
during the run are the saved upload, the generated images, and the final
video; the cleanup loop then removes every file in `temp`. -/
def run_pipeline (uploaded_name : List Char) (audio_duration : ℚ)
    (transcribed_text : List Char) (style_prompt : String)
    (api : ℕ → ApiResult) : RunOutcome :=
  let audio_path := os_path_join "temp".data uploaded_name
  let sentences := segment_text transcribed_text
  if sentences = [] then RunOutcome.fatalNoSentences
  else
    let image_paths := sentences.enum.filterMap fun p =>
      generate_image_for_sentence p.2 style_prompt p.1 (api p.1)
    if image_paths = [] then RunOutcome.fatalNoImages
    else
      match create_video_from_images image_paths ⟨audio_duration⟩
          "final_animation.mp4".data with
      | none => RunOutcome.fatalAssembly
      | some (video, video_path) =>
        let files := audio_path :: image_paths ++ [video_path]
        RunOutcome.completed video video_path
          (files.filter fun p => !(in_temp p))

/-! ### Helper lemmas about the pipeline -/

/-- The list built by the illustration loop (src/main.py lines 137-147):
each sentence is tried in order and only the successful paths are kept. -/
def pipeline_image_paths (t : List Char) (sp : String) (api : ℕ → ApiResult) :
    List (List Char) :=
  (segment_text t).enum.filterMap fun p =>
    generate_image_for_sentence p.2 sp p.1 (api p.1)

theorem pipeline_image_paths_eq (t : List Char) (sp : String)
    (api : ℕ → ApiResult) :
    pipeline_image_paths t sp api =
      (((segment_text t).enum.filter fun p => api_ok (api p.1)).map
        fun p => temp_image_path p.1) := by
  unfold pipeline_image_paths generate_image_for_sentence api_ok
  generalize (segment_text t).enum = l
  induction l with
  | nil => rfl
  | cons hd tl ih =>
    cases hapi : api hd.1 with
    | ok u => simp [List.filterMap_cons, List.filter_cons, hapi, ih]
    | error msg => simp [List.filterMap_cons, List.filter_cons, hapi, ih]

theorem map_const_sum (l : List α) (d : ℚ) :
    (l.map fun _ => d).sum = (l.length : ℚ) * d := by
  rw [show (fun _ => d) = Function.const α d from rfl, List.map_const,
    List.sum_replicate, nsmul_eq_mul]

theorem create_video_some (ps : List (List Char)) (a : AudioFileClip)
    (out : List Char) (h : ps ≠ []) :
    ∃ v, create_video_from_images ps a out = some (v, out) ∧
      v.clips = (ps.map fun p =>
        (⟨p, a.duration / (ps.length : ℚ), 1 / 2⟩ : ImageClip)) ∧
      v.audio = some a ∧
      v.duration = (v.clips.map ImageClip.duration).sum := by
  have hlen : ¬ ps.length = 0 := fun h0 => h (List.length_eq_zero.mp h0)
  unfold create_video_from_images
  rw [if_neg hlen]
  exact ⟨_, rfl, rfl, rfl, rfl⟩

theorem create_video_total_duration (ps : List (List Char)) (a : AudioFileClip)
    (v : VideoClip)
    (h : ps ≠ [])
    (hclips : v.clips = (ps.map fun p =>
      (⟨p, a.duration / (ps.length : ℚ), 1 / 2⟩ : ImageClip)))
    (hdur : v.duration = (v.clips.map ImageClip.duration).sum) :
    v.duration = a.duration := by
  have hlen : (ps.length : ℚ) ≠ 0 := by
    rw [Nat.cast_ne_zero]
    exact fun h0 => h (List.length_eq_zero.mp h0)
  rw [hdur, hclips, List.map_map]
  have : (ImageClip.duration ∘ fun p =>
      (⟨p, a.duration / (ps.length : ℚ), 1 / 2⟩ : ImageClip)) =
      fun _ => a.duration / (ps.length : ℚ) := rfl
  rw [this, map_const_sum, mul_div_assoc', mul_div_cancel_left₀ _ hlen]

theorem run_pipeline_completed (un : List Char) (D : ℚ) (t : List Char)
    (sp : String) (api : ℕ → ApiResult)
    (h1 : segment_text t ≠ [])
    (h2 : pipeline_image_paths t sp api ≠ []) :
    ∃ v, run_pipeline un D t sp api =
      RunOutcome.completed v "final_animation.mp4".data
        ((os_path_join "temp".data un ::
          pipeline_image_paths t sp api ++
          ["final_animation.mp4".data]).filter fun p => !(in_temp p)) ∧
      v.clips = (pipeline_image_paths t sp api).map (fun ip =>
        (⟨ip, D / ((pipeline_image_paths t sp api).length : ℚ), 1 / 2⟩ : ImageClip)) ∧
      v.audio = some ⟨D⟩ ∧
      v.duration = (v.clips.map ImageClip.duration).sum := by
  obtain ⟨v, hcv, hclips, haud, hdur⟩ :=
    create_video_some (pipeline_image_paths t sp api) ⟨D⟩
      "final_animation.mp4".data h2
  unfold pipeline_image_paths at h2 hcv hclips
  simp only [run_pipeline]
  rw [if_neg h1, if_neg h2, hcv]
  exact ⟨v, rfl, hclips, haud, hdur⟩

theorem in_temp_join (f : List Char) :
    in_temp (os_path_join "temp".data f) = true := rfl

theorem cleanup_files (un : List Char) (imgs : List (List Char))
    (himgs : ∀ p ∈ imgs, in_temp p = true) :
    ((os_path_join "temp".data un :: imgs ++
      ["final_animation.mp4".data]).filter fun p => !(in_temp p)) =
    ["final_animation.mp4".data] := by
  have h1 : ¬((!(in_temp (os_path_join "temp".data un))) = true) := by
    rw [in_temp_join]
    decide
  have h2 : List.filter (fun p => !(in_temp p)) imgs = [] := by
    rw [List.filter_eq_nil_iff]
    intro a ha
    rw [himgs a ha]
    simp
  rw [List.filter_append, List.filter_cons, if_neg h1, h2]
  decide

theorem pipeline_image_paths_ne_nil (t : List Char) (sp : String)
    (api : ℕ → ApiResult)
    (h : ∃ p ∈ (segment_text t).enum, api_ok (api p.1) = true) :
    pipeline_image_paths t sp api ≠ [] := by
  rw [pipeline_image_paths_eq]
  rcases h with ⟨p, hp, hok⟩
  intro hnil
  rw [List.map_eq_nil_iff] at hnil
  have : p ∈ ([] : List (ℕ × List Char)) := by
    rw [← hnil]
    exact List.mem_filter.mpr ⟨hp, hok⟩
  cases this

/-! ### Claims -/

/-- C1 counterexample: the transcript "." contains a `.` but
`segment_text` returns the empty list, refuting the claim that any
transcript containing `.`, `!` or `?` segments to a non-empty list. -/
theorem dot_transcript_segments_empty :
    ('.' ∈ ".".data) ∧ segment_text ".".data = [] := by decide

/-- C1 (amended): for every transcript containing at least one of `.`,
`!`, `?` and at least one character that is none of these and not
whitespace, `segment_text` returns a non-empty list, and every element of
the returned list is non-empty after whitespace trimming. -/
theorem segmenter_nonempty_and_trimmed (T : List Char)
    (hpunct : ∃ c ∈ T, c = '.' ∨ c = '!' ∨ c = '?')
    (hcontent : ∃ c ∈ T, c ≠ '.' ∧ c ≠ '!' ∧ c ≠ '?' ∧ pyIsSpace c = false) :
    segment_text T ≠ [] ∧ ∀ e ∈ segment_text T, pyStrip e ≠ [] := by
  rcases hcontent with ⟨c, hc, h1, h2, h3, h4⟩
  refine ⟨segment_text_ne_nil T c hc h1 h2 h3 h4, ?_⟩
  intro e he
  obtain ⟨hs, hne, -⟩ := mem_segment_text T e he
  rw [hs]
  exact hne

theorem segmenter_nonempty_and_trimmed_witness :
    (∃ c ∈ "a.".data, c = '.' ∨ c = '!' ∨ c = '?') ∧
    (∃ c ∈ "a.".data, c ≠ '.' ∧ c ≠ '!' ∧ c ≠ '?' ∧ pyIsSpace c = false) ∧
    (segment_text "a.".data ≠ [] ∧
      ∀ e ∈ segment_text "a.".data, pyStrip e ≠ []) :=
  ⟨by decide, by decide,
    segmenter_nonempty_and_trimmed "a.".data (by decide) (by decide)⟩

/-- C2: with a non-empty image list, every per-image clip is given
duration `D / n` (exact in the rational model of durations), and the
concatenated video's total duration equals the audio duration `D`. -/
theorem uniform_per_image_duration (image_paths : List (List Char))
    (audio_clip : AudioFileClip) (h : image_paths ≠ []) :
    ∃ v, create_video_from_images image_paths audio_clip
        "final_animation.mp4".data = some (v, "final_animation.mp4".data) ∧
      (∀ c ∈ v.clips,
        c.duration = audio_clip.duration / (image_paths.length : ℚ)) ∧
      v.duration = audio_clip.duration := by
  obtain ⟨v, hcv, hclips, -, hdur⟩ :=
    create_video_some image_paths audio_clip _ h
  refine ⟨v, hcv, ?_, create_video_total_duration _ _ _ h hclips hdur⟩
  intro c hcmem
  rw [hclips, List.mem_map] at hcmem
  rcases hcmem with ⟨p, -, rfl⟩
  rfl

theorem uniform_per_image_duration_witness :
    (["temp/image_0.png".data, "temp/image_1.png".data] ≠
      ([] : List (List Char))) ∧
    ∃ v, create_video_from_images
        ["temp/image_0.png".data, "temp/image_1.png".data] ⟨10⟩
        "final_animation.mp4".data = some (v, "final_animation.mp4".data) ∧
      (∀ c ∈ v.clips, c.duration = (10 : ℚ) /
        (([("temp/image_0.png".data), ("temp/image_1.png".data)].length : ℕ) : ℚ)) ∧
      v.duration = (10 : ℚ) :=
  ⟨by decide, uniform_per_image_duration _ ⟨10⟩ (by decide)⟩

/-- C3: when the segmentation is non-empty but every illustration attempt
fails, the run ends with the all-failed fatal error and never reaches the
assembler; moreover the assembler applied to zero images fails
immediately (the duration division raises) without encoding anything. -/
theorem all_illustrations_failed_stops (un : List Char) (D : ℚ)
    (t : List Char) (sp : String) (api : ℕ → ApiResult)
    (h1 : segment_text t ≠ [])
    (h2 : ∀ i, ∃ msg, api i = Except.error msg) :
    run_pipeline un D t sp api = RunOutcome.fatalNoImages ∧
    ∀ (a : AudioFileClip) (out : List Char),
      create_video_from_images [] a out = none := by
  have himg : pipeline_image_paths t sp api = [] := by
    unfold pipeline_image_paths
    rw [List.filterMap_eq_nil_iff]
    intro p hp
    rcases h2 p.1 with ⟨msg, hmsg⟩
    unfold generate_image_for_sentence
    rw [hmsg]
  constructor
  · unfold pipeline_image_paths at himg
    simp only [run_pipeline]
    rw [if_neg h1, if_pos himg]
  · intro a out
    rfl

theorem all_illustrations_failed_stops_witness :
    (segment_text "a.".data ≠ []) ∧
    (run_pipeline "voz.mp3".data 10 "a.".data ""
        (fun _ => Except.error "falha") = RunOutcome.fatalNoImages ∧
      ∀ (a : AudioFileClip) (out : List Char),
        create_video_from_images [] a out = none) :=
  ⟨by decide, all_illustrations_failed_stops "voz.mp3".data 10 "a.".data ""
    (fun _ => Except.error "falha") (by decide) (fun _ => ⟨"falha", rfl⟩)⟩

/-- C4: failing illustration attempts return `None` (the exception is
caught, not propagated), the run continues, and the assembler receives
exactly the successful image paths, one per succeeding sentence, in the
original sentence order. -/
theorem partial_failure_continues_in_order (un : List Char) (D : ℚ)
    (t : List Char) (sp : String) (api : ℕ → ApiResult)
    (h1 : segment_text t ≠ [])
    (h2 : ∃ p ∈ (segment_text t).enum, api_ok (api p.1) = true) :
    (∀ (i : ℕ) (s : List Char) (msg : String), api i = Except.error msg →
      generate_image_for_sentence s sp i (api i) = none) ∧
    ∃ v files, run_pipeline un D t sp api =
        RunOutcome.completed v "final_animation.mp4".data files ∧
      v.clips.map ImageClip.image =
        (((segment_text t).enum.filter fun p => api_ok (api p.1)).map
          fun p => temp_image_path p.1) := by
  have hne : pipeline_image_paths t sp api ≠ [] :=
    pipeline_image_paths_ne_nil t sp api h2
  obtain ⟨v, hrun, hclips, -, -⟩ := run_pipeline_completed un D t sp api h1 hne
  refine ⟨?_, v, _, hrun, ?_⟩
  · intro i s msg hmsg
    unfold generate_image_for_sentence
    rw [hmsg]
  · rw [hclips, List.map_map]
    have hcomp : (ImageClip.image ∘ fun ip =>
        (⟨ip, D / ((pipeline_image_paths t sp api).length : ℚ), 1 / 2⟩ :
          ImageClip)) = id := rfl
    rw [hcomp, List.map_id]
    exact pipeline_image_paths_eq t sp api

theorem partial_failure_continues_in_order_witness :
    (segment_text "a. b.".data ≠ []) ∧
    (∃ p ∈ (segment_text "a. b.".data).enum,
      api_ok ((fun i => if i = 0 then Except.ok () else
        Except.error "falha") p.1) = true) ∧
    ((∀ (i : ℕ) (s : List Char) (msg : String),
        (fun i => if i = 0 then Except.ok () else Except.error "falha") i =
          Except.error msg →
        generate_image_for_sentence s "" i
          ((fun i => if i = 0 then Except.ok () else Except.error "falha") i) =
          none) ∧
      ∃ v files, run_pipeline "voz.mp3".data 10 "a. b.".data ""
          (fun i => if i = 0 then Except.ok () else Except.error "falha") =
          RunOutcome.completed v "final_animation.mp4".data files ∧
        v.clips.map ImageClip.image =
          (((segment_text "a. b.".data).enum.filter fun p =>
            api_ok ((fun i => if i = 0 then Except.ok () else
              Except.error "falha") p.1)).map
            fun p => temp_image_path p.1)) :=
  ⟨by decide, by decide,
    partial_failure_continues_in_order "voz.mp3".data 10 "a. b.".data ""
      (fun i => if i = 0 then Except.ok () else Except.error "falha")
      (by decide) (by decide)⟩

/-- C5: when segmentation of the transcript is empty, the run stops with
the no-sentences fatal error; the illustration and assembly stages are
never reached. -/
theorem empty_segmentation_is_fatal (un : List Char) (D : ℚ) (t : List Char)
    (sp : String) (api : ℕ → ApiResult) (h : segment_text t = []) :
    run_pipeline un D t sp api = RunOutcome.fatalNoSentences := by
  simp only [run_pipeline]
  rw [if_pos h]

theorem empty_segmentation_is_fatal_witness :
    (segment_text ".".data = []) ∧
    run_pipeline "voz.mp3".data 10 ".".data ""
      (fun _ => Except.ok ()) = RunOutcome.fatalNoSentences :=
  ⟨by decide, empty_segmentation_is_fatal "voz.mp3".data 10 ".".data ""
    (fun _ => Except.ok ()) (by decide)⟩

/-- C6: `create_video_from_images` builds one clip per image in order and
applies a 0.5-second fade-in to every one of them, including every clip
after the first, before concatenation. -/
theorem fadein_applied_to_every_clip (image_paths : List (List Char))
    (audio_clip : AudioFileClip) (h : image_paths ≠ []) :
    ∃ v, create_video_from_images image_paths audio_clip
        "final_animation.mp4".data = some (v, "final_animation.mp4".data) ∧
      v.clips.map ImageClip.image = image_paths ∧
      ∀ c ∈ v.clips, c.fadein_duration = 1 / 2 := by
  obtain ⟨v, hcv, hclips, -, -⟩ :=
    create_video_some image_paths audio_clip _ h
  refine ⟨v, hcv, ?_, ?_⟩
  · rw [hclips, List.map_map]
    have hcomp : (ImageClip.image ∘ fun p =>
        (⟨p, audio_clip.duration / (image_paths.length : ℚ), 1 / 2⟩ :
          ImageClip)) = id := rfl
    rw [hcomp, List.map_id]
  · intro c hc
    rw [hclips, List.mem_map] at hc
    rcases hc with ⟨p, -, rfl⟩
    rfl

theorem fadein_applied_to_every_clip_witness :
    (["temp/image_0.png".data, "temp/image_1.png".data,
      "temp/image_2.png".data] ≠ ([] : List (List Char))) ∧
    ∃ v, create_video_from_images
        ["temp/image_0.png".data, "temp/image_1.png".data,
          "temp/image_2.png".data] ⟨9⟩
        "final_animation.mp4".data = some (v, "final_animation.mp4".data) ∧
      v.clips.map ImageClip.image =
        ["temp/image_0.png".data, "temp/image_1.png".data,
          "temp/image_2.png".data] ∧
      ∀ c ∈ v.clips, c.fadein_duration = 1 / 2 :=
  ⟨by decide, fadein_applied_to_every_clip _ ⟨9⟩ (by decide)⟩

/-- C7: the punctuation-free transcript "helloworld" segments to the
one-element list containing the whole text, not to the empty list. -/
theorem helloworld_single_sentence :
    segment_text "helloworld".data = ["helloworld".data] := by decide

/-- C8 counterexample: for the punctuation-free string s = " " (one
space), `segment_text (s ++ ".")` is `[]`, not `[s]`, refuting the claim
for arbitrary punctuation-free strings. -/
theorem space_input_breaks_append_dot :
    ('.' ∉ [' ']) ∧ ('!' ∉ [' ']) ∧ ('?' ∉ [' ']) ∧
    segment_text ([' '] ++ ['.']) ≠ [[' ']] := by decide

/-- C8 (amended): for every non-empty, already-stripped string s
containing no `.`, `!` or `?`, `segment_text (s ++ ".")` is exactly
`[s]`. -/
theorem append_dot_roundtrip (s : List Char)
    (hdot : '.' ∉ s) (hexc : '!' ∉ s) (hq : '?' ∉ s)
    (hstrip : pyStrip s = s) (hne : s ≠ []) :
    segment_text (s ++ ['.']) = [s] :=
  segment_text_append_dot s hdot hexc hq hstrip hne

theorem append_dot_roundtrip_witness :
    ('.' ∉ "hello".data) ∧ ('!' ∉ "hello".data) ∧ ('?' ∉ "hello".data) ∧
    (pyStrip "hello".data = "hello".data) ∧ ("hello".data ≠ []) ∧
    segment_text ("hello".data ++ ['.']) = ["hello".data] :=
  ⟨by decide, by decide, by decide, by decide, by decide,
    append_dot_roundtrip "hello".data (by decide) (by decide) (by decide)
      (by decide) (by decide)⟩

/-- C9: every element of a segmentation result contains no `.`, `!` or
`?`, carries no leading or trailing whitespace (it equals its own strip),
and re-segmenting it returns exactly that element: `segment_text` is
idempotent on its own output. -/
theorem segment_idempotent_on_output (t e : List Char)
    (h : e ∈ segment_text t) :
    (∀ c ∈ e, c ≠ '.' ∧ c ≠ '!' ∧ c ≠ '?') ∧ pyStrip e = e ∧
    segment_text e = [e] := by
  obtain ⟨hstrip, hne, hpunct⟩ := mem_segment_text t e h
  refine ⟨hpunct, hstrip, ?_⟩
  refine segment_text_of_no_punct e ?_ ?_ ?_ hstrip hne
  · intro hc
    exact (hpunct '.' hc).1 rfl
  · intro hc
    exact (hpunct '!' hc).2.1 rfl
  · intro hc
    exact (hpunct '?' hc).2.2 rfl

theorem segment_idempotent_on_output_witness :
    ("Hi there".data ∈ segment_text " Hi there. Ok! ".data) ∧
    ((∀ c ∈ "Hi there".data, c ≠ '.' ∧ c ≠ '!' ∧ c ≠ '?') ∧
      pyStrip "Hi there".data = "Hi there".data ∧
      segment_text "Hi there".data = ["Hi there".data]) :=
  ⟨by decide,
    segment_idempotent_on_output " Hi there. Ok! ".data "Hi there".data
      (by decide)⟩

/-- C10: the final video is written to "final_animation.mp4", which is
not inside the `temp` scratch directory; the cleanup loop removes exactly
the files in `temp` (uploaded audio and generated images), so after
cleanup the only remaining run artifact is the output video. -/
theorem cleanup_preserves_final_video (un : List Char) (D : ℚ)
    (t : List Char) (sp : String) (api : ℕ → ApiResult)
    (h1 : segment_text t ≠ [])
    (h2 : ∃ p ∈ (segment_text t).enum, api_ok (api p.1) = true) :
    in_temp "final_animation.mp4".data = false ∧
    in_temp (os_path_join "temp".data un) = true ∧
    (∀ i, in_temp (temp_image_path i) = true) ∧
    ∃ v, run_pipeline un D t sp api =
      RunOutcome.completed v "final_animation.mp4".data
        ["final_animation.mp4".data] := by
  refine ⟨rfl, in_temp_join un, fun i => in_temp_join _, ?_⟩
  have hne : pipeline_image_paths t sp api ≠ [] :=
    pipeline_image_paths_ne_nil t sp api h2
  obtain ⟨v, hrun, -, -, -⟩ := run_pipeline_completed un D t sp api h1 hne
  refine ⟨v, ?_⟩
  rw [hrun]
  congr 1
  refine cleanup_files un (pipeline_image_paths t sp api) ?_
  intro p hp
  rw [pipeline_image_paths_eq, List.mem_map] at hp
  rcases hp with ⟨q, -, rfl⟩
  exact in_temp_join _

theorem cleanup_preserves_final_video_witness :
    (segment_text "Hello world. This is a test.".data ≠ []) ∧
    (∃ p ∈ (segment_text "Hello world. This is a test.".data).enum,
      api_ok ((fun _ => Except.ok ()) p.1) = true) ∧
    (in_temp "final_animation.mp4".data = false ∧
      in_temp (os_path_join "temp".data "audio.mp3".data) = true ∧
      (∀ i, in_temp (temp_image_path i) = true) ∧
      ∃ v, run_pipeline "audio.mp3".data 10
          "Hello world. This is a test.".data "" (fun _ => Except.ok ()) =
        RunOutcome.completed v "final_animation.mp4".data
          ["final_animation.mp4".data]) :=
  ⟨by decide, by decide,
    cleanup_preserves_final_video "audio.mp3".data 10
      "Hello world. This is a test.".data "" (fun _ => Except.ok ())
      (by decide) (by decide)⟩

end Animador
